import Mathlib

set_option linter.unusedVariables false

/-
Verification development for the ISMCTS search engine (src/ISMCTS.py).

The Python source is shallowly embedded: floating point numbers become exact
rationals (ℚ), numpy arrays become lists, the two node classes become one
inductive type with a kind tag, object mutation becomes explicit state passing
(every `visit` returns the updated node together with an optional Python
exception), and the ambient random generator becomes an explicit `pick`
oracle passed to `visit`.  Python exceptions are modelled by `PyErr`: a
function that can raise returns `Except PyErr _`, and `visit` returns
`Option PyErr × Node` so that the mutations performed before an exception
propagates remain visible in the returned state, exactly as they do on the
live Python objects.
-/

namespace ISMCTS

/-- Python exceptions that the source can raise, plus a fuel marker used only
to make the recursive `visit` structurally terminating (never reached in any
theorem below, which all supply enough fuel). -/
inductive PyErr where
  | typeError
  | unboundLocalError
  | valueError
  | keyError
  | assertionError
  | fuelExhausted
deriving DecidableEq

/-- NUM_PLAYERS = 2 (source line 7). -/
def NUM_PLAYERS : ℕ := 2

/-- c_PUCT = 1.0 (source line 8). -/
def c_PUCT : ℚ := 1

/-- PHI_EPS = 0.05 (source line 9). -/
def PHI_EPS : ℚ := 1 / 20

/-- An interval (lower, upper) for one player. -/
abbrev Interval := ℚ × ℚ

/-- An IntervalArray of shape (NUM_PLAYERS, 2): one interval per player. -/
abbrev IArr := Interval × Interval

/-- An IntervalArrayLike (source line 14): either a ValueArray of shape
(NUM_PLAYERS,) or an IntervalArray of shape (NUM_PLAYERS, 2). -/
inductive IAL where
  | scalar (v : ℚ × ℚ)
  | interval (i : IArr)

/-- DUMMY_INTERVAL_ARRAY = np.zeros((NUM_PLAYERS, 2)) (source line 18). -/
def DUMMY_INTERVAL_ARRAY : IArr := ((0, 0), (0, 0))

/-- to_interval_array (source lines 21-25): a ValueArray v is broadcast to the
degenerate interval (v, v) per player; an IntervalArray is returned as is. -/
def to_interval_array : IAL → IArr
  | .scalar v => ((v.1, v.1), (v.2, v.2))
  | .interval i => i

/-- Componentwise sum of two interval arrays. -/
def iadd (x y : IArr) : IArr :=
  ((x.1.1 + y.1.1, x.1.2 + y.1.2), (x.2.1 + y.2.1, x.2.2 + y.2.2))

/-- Scalar multiple of an interval array. -/
def iscale (c : ℚ) (x : IArr) : IArr :=
  ((c * x.1.1, c * x.1.2), (c * x.2.1, c * x.2.2))

/-- Componentwise division of an interval array by a scalar. -/
def idivs (x : IArr) (c : ℚ) : IArr :=
  ((x.1.1 / c, x.1.2 / c), (x.2.1 / c, x.2.2 / c))

/-- np.sum(Qc * w[:, na, na], axis=0): the w-weighted sum of a list of
interval arrays (used for E_pure and E_mixed, source lines 177-178). -/
def weightedSum (Qc : List IArr) (w : List ℚ) : IArr :=
  (List.zipWith iscale w Qc).foldr iadd DUMMY_INTERVAL_ARRAY

/-- Row of an interval array for one player: Q[cp] (players are 0 and 1). -/
def playerRow (x : IArr) (cp : ℕ) : Interval :=
  if cp = 0 then x.1 else x.2

/-- Numpy treats booleans as 1.0 / 0.0 in arithmetic. -/
def boolToRat (b : Bool) : ℚ := if b then 1 else 0

/-- np.zeros(n) as a list. -/
def zerosList (n : ℕ) : List ℚ := List.replicate n 0

/-- The one-hot distribution pure_distr (source lines 167-168). -/
def oneHot (n : ℕ) (i : ℕ) : List ℚ :=
  (List.range n).map (fun j => if j = i then 1 else 0)

/-- The running-average update (old * (n - 1) + distr) / n applied
componentwise, where n is the counter value after its increment
(source lines 169 and 174). -/
def runningAvg (old distr : List ℚ) (n : ℕ) : List ℚ :=
  List.zipWith (fun o x => (o * ((n : ℚ) - 1) + x) / (n : ℚ)) old distr

/-- First index of the maximum of a list, like np.argmax (helper). -/
def argmaxAux (best : ℕ) (bestVal : ℚ) (i : ℕ) : List ℚ → ℕ
  | [] => best
  | x :: xs => if bestVal < x then argmaxAux i x (i + 1) xs
               else argmaxAux best bestVal (i + 1) xs

/-- np.argmax: the first index attaining the maximum (0 on the empty list,
on which numpy raises instead; every use below is on a nonempty list). -/
def argmaxFirst : List ℚ → ℕ
  | [] => 0
  | x :: xs => argmaxAux 0 x 1 xs

/-- An exact stand-in for np.sqrt used to instantiate the square-root
parameter of the selection rule at concrete inputs: it agrees with the real
square root on perfect squares (the only inputs appearing in the concrete
scenarios below).  All general theorems quantify over an arbitrary
square-root function instead. -/
def ratSqrt (q : ℚ) : ℚ := (Nat.sqrt q.num.toNat : ℚ) / (Nat.sqrt q.den : ℚ)

/-- An information set (source lines 28-55): the external, immutable view of
the game state.  `applyMap` and `instMap` tabulate the two transition
operations; the accessors below mirror the abstract methods. -/
inductive InfoSet where
  | mk (hasHidden : Bool) (cp : ℕ) (outcome : Option (ℚ × ℚ))
       (actions : List ℕ) (hMask : List Bool)
       (applyMap : List (ℕ × InfoSet)) (instMap : List (ℕ × InfoSet))

/-- A default information set used as the lookup fallback of the transition
tables (the concrete scenarios below only ever look up tabulated entries). -/
def InfoSet.dummy : InfoSet := .mk false 0 none [] [] [] []

/-- InfoSet.has_hidden_info. -/
def InfoSet.has_hidden_info : InfoSet → Bool
  | .mk h _ _ _ _ _ _ => h

/-- InfoSet.get_current_player. -/
def InfoSet.get_current_player : InfoSet → ℕ
  | .mk _ c _ _ _ _ _ => c

/-- InfoSet.get_game_outcome (one value per player, present only at terminal
states; the source declares Optional[int] but uses it as a per-player array
via to_interval_array, source line 98). -/
def InfoSet.get_game_outcome : InfoSet → Option (ℚ × ℚ)
  | .mk _ _ o _ _ _ _ => o

/-- InfoSet.get_actions. -/
def InfoSet.get_actions : InfoSet → List ℕ
  | .mk _ _ _ a _ _ _ => a

/-- InfoSet.get_H_mask. -/
def InfoSet.get_H_mask : InfoSet → List Bool
  | .mk _ _ _ _ m _ _ => m

/-- InfoSet.apply(action): the tabulated public-action transition. -/
def InfoSet.apply : InfoSet → ℕ → InfoSet
  | .mk _ _ _ _ _ am _, a => (am.lookup a).getD InfoSet.dummy

/-- InfoSet.instantiate_hidden_state(h): the tabulated hidden transition. -/
def InfoSet.instantiate_hidden_state : InfoSet → ℕ → InfoSet
  | .mk _ _ _ _ _ _ im, h => (im.lookup h).getD InfoSet.dummy

/-- The evaluator contract (source lines 59-67): action_eval and hidden_eval
each return (distribution, value, per-child values). -/
structure Model where
  action_eval : InfoSet → List ℚ × IAL × List IAL
  hidden_eval : InfoSet → List ℚ × IAL × List IAL

/-- The ActionNode-specific state (source lines 86-103): the action list, the
lazily filled evaluation results P, V, Vc, and the running PURE / MIXED
distributions with their counters. -/
structure AData where
  actions : List ℕ
  P : Option (List ℚ)
  V : Option IAL
  Vc : Option (List IAL)
  PURE : List ℚ
  MIXED : List ℚ
  n_mixed : ℕ
  n_pure : ℕ

/-- The SamplingNode-specific state (source lines 186-195): the lazily filled
belief H, evaluation results V, Vc, the per-hidden-value child table Qc, and
the hidden-value legality mask. -/
structure SData where
  H : Option (List ℚ)
  V : Option IAL
  Vc : Option (List IAL)
  Qc : Option (List IArr)
  H_mask : List Bool

/-- The node kind: the source's two concrete Node subclasses. -/
inductive NodeKind where
  | action (d : AData)
  | sampling (d : SData)

/-- A tree node (source lines 70-76): the shared fields of Node.__init__
(info_set, cp, game_outcome, Q, N) plus the kind-specific state and the
children map (a Python dict in insertion order, embedded as an association
list). -/
inductive Node where
  | mk (info_set : InfoSet) (cp : ℕ) (game_outcome : Option (ℚ × ℚ))
       (Q : IArr) (N : ℕ) (kind : NodeKind) (children : List (ℕ × Node))

/-- The info_set field of a node. -/
def Node.info_set : Node → InfoSet
  | .mk i _ _ _ _ _ _ => i

/-- The cp field of a node. -/
def Node.cp : Node → ℕ
  | .mk _ c _ _ _ _ _ => c

/-- The game_outcome field of a node. -/
def Node.game_outcome : Node → Option (ℚ × ℚ)
  | .mk _ _ o _ _ _ _ => o

/-- The Q field of a node. -/
def Node.Q : Node → IArr
  | .mk _ _ _ q _ _ _ => q

/-- The visit count N of a node. -/
def Node.N : Node → ℕ
  | .mk _ _ _ _ n _ _ => n

/-- The kind tag of a node. -/
def Node.kind : Node → NodeKind
  | .mk _ _ _ _ _ k _ => k

/-- The children map of a node. -/
def Node.children : Node → List (ℕ × Node)
  | .mk _ _ _ _ _ _ c => c

/-- The n_pure counter of a decision node (0 for a sampling node). -/
def Node.n_pure (n : Node) : ℕ :=
  match n.kind with
  | .action d => d.n_pure
  | .sampling _ => 0

/-- The n_mixed counter of a decision node (0 for a sampling node). -/
def Node.n_mixed (n : Node) : ℕ :=
  match n.kind with
  | .action d => d.n_mixed
  | .sampling _ => 0

/-- The P field of a decision node. -/
def Node.Pfield (n : Node) : Option (List ℚ) :=
  match n.kind with
  | .action d => d.P
  | .sampling _ => none

/-- The H field of a sampling node. -/
def Node.Hfield (n : Node) : Option (List ℚ) :=
  match n.kind with
  | .action _ => none
  | .sampling d => d.H

/-- The belief H of a sampling node as a list (empty before expansion). -/
def Node.Hlist (n : Node) : List ℚ :=
  match n.kind with
  | .action _ => []
  | .sampling d => d.H.getD []

/-- ActionNode.__init__ (source lines 87-103): the shared Node fields are
initialized from the information set, Q is seeded from initQ, and a terminal
node's Q is overwritten with its game outcome broadcast to both bounds;
PURE and MIXED start as zero vectors over the actions. -/
def mkActionNode (is : InfoSet) (initQ : IAL) : Node :=
  let go := is.get_game_outcome
  let Q0 := to_interval_array initQ
  let Q := match go with
    | some out => to_interval_array (.scalar out)
    | none => Q0
  let na := is.get_actions.length
  .mk is is.get_current_player go Q 0
    (.action { actions := is.get_actions, P := none, V := none, Vc := none,
               PURE := zerosList na, MIXED := zerosList na,
               n_mixed := 0, n_pure := 0 }) []

/-- SamplingNode.__init__ (source lines 187-195).  The source asserts
np.any(H_mask); every concrete scenario below satisfies it, so the assert is
not modelled as a separate failure. -/
def mkSamplingNode (is : InfoSet) (initQ : IAL) : Node :=
  .mk is is.get_current_player is.get_game_outcome (to_interval_array initQ) 0
    (.sampling { H := none, V := none, Vc := none, Qc := none,
                 H_mask := is.get_H_mask }) []

/-- ActionNode.get_mixing_distribution (source lines 144-151).  Its first
statement is mask = np.zeros_like(P): the name P is a local variable of this
function (it is assigned two lines later by P = self.P * mask), so Python
raises UnboundLocalError the moment the function is entered, on every call.
The restriction of self.P to the candidate set, the positive-mass assert and
the renormalization on the following lines are unreachable. -/
def get_mixing_distribution (P : List ℚ) (action_indices : List ℕ) :
    Except PyErr (List ℚ) :=
  .error .unboundLocalError

/-- The restriction-and-renormalization that get_mixing_distribution was
evidently intended to perform (mask = np.zeros_like(self.P);
mask[action_indices] = 1; P = self.P * mask; P / np.sum(P)), kept here for
comparison with the claim. -/
def get_mixing_distribution_intended (P : List ℚ) (action_indices : List ℕ) :
    List ℚ :=
  let mask := (List.range P.length).map
    (fun i => if i ∈ action_indices then (1 : ℚ) else 0)
  let Pm := List.zipWith (fun p m => p * m) P mask
  Pm.map (fun x => x / Pm.sum)

/-- SamplingNode.Phi (source lines 206-266).  After building one_c, the body
executes output = np.zeros(NUM_PLAYERS, 2).  The second positional argument
of np.zeros is the dtype, and np.dtype(2) raises TypeError (2 cannot be
interpreted as a data type), so Phi raises on every call; the per-player,
per-bound water-filling loops and the final dot products further down are
dead code (they are reconstructed, with that one allocation fixed, as
PhiFixed further below for comparison with the claims about Phi). -/
def Phi (c : ℕ) (eps : ℚ) (Q : List IArr) (H : List ℚ) : Except PyErr IArr :=
  .error .typeError

/-- The elementwise product self.H * self.H_mask (source line 198). -/
def masked_H (H : List ℚ) (mask : List Bool) : List ℚ :=
  List.zipWith (fun h b => h * boolToRat b) H mask

/-- The uniform fallback self.H_mask / np.sum(self.H_mask)
(source line 202). -/
def uniform_legal (mask : List Bool) : List ℚ :=
  mask.map (fun b => boolToRat b / (mask.map boolToRat).sum)

/-- SamplingNode.apply_H_mask (source lines 197-204): zero the belief outside
the legality mask; if the remaining mass is below 1e-6 replace it by the
uniform distribution over legal hidden values, otherwise renormalize. -/
def apply_H_mask (H : List ℚ) (mask : List Bool) : List ℚ :=
  let Hm := masked_H H mask
  let H_sum := Hm.sum
  if H_sum < 1 / 1000000 then uniform_legal mask
  else Hm.map (fun x => x / H_sum)

/-- Numpy broadcasting of PUCT = Q[:, cp] + expl (source line 136), where
Q[:, cp] has shape (c, 2) and the exploration vector expl has shape (c,).
Right-aligning the shapes compares 2 against c: with c = 1 the single
exploration value is added to both bounds; with c = 2 numpy silently adds
expl[j] to bound column j of every row (the broadcast runs along the bound
axis, not the action axis); any other c raises ValueError (operands could
not be broadcast together).  Both arguments always have the same length c
at the call site. -/
def puctBroadcastAdd (qcp : List Interval) (expl : List ℚ) :
    Except PyErr (List Interval) :=
  match expl with
  | [e0] => .ok (qcp.map (fun q => (q.1 + e0, q.2 + e0)))
  | [e0, e1] => .ok (qcp.map (fun q => (q.1 + e0, q.2 + e1)))
  | _ => .error .valueError

/-- The score computation of ActionNode.computePUCT (source lines 125-136):
collect each child's interval row for the acting player and its visit count,
and add the broadcast exploration term
c_PUCT * P * sqrt(sum N) / (N + 1). -/
def puct_scores (sqrtfn : ℚ → ℚ) (cp : ℕ) (P : List ℚ)
    (children : List (ℕ × Node)) : Except PyErr (List Interval) :=
  let Ns := children.map (fun p => ((p.2.N : ℚ)))
  let expl := List.zipWith
    (fun pa na => c_PUCT * pa * sqrtfn Ns.sum / (na + 1)) P Ns
  puctBroadcastAdd (children.map (fun p => playerRow p.2.Q cp)) expl

/-- The selection score formula exactly as the spec states it:
score[a, bound] = Q[a, cp, bound] + C * P[a] * sqrt(sum N) / (N[a] + 1),
with the per-action exploration term added to both bounds of action a.
This definition follows the spec's words and is compared against
puct_scores, which follows the source. -/
def spec_scores (sqrtfn : ℚ → ℚ) (cp : ℕ) (P : List ℚ)
    (children : List (ℕ × Node)) : List Interval :=
  let Ns := children.map (fun p => ((p.2.N : ℚ)))
  let expl := List.zipWith
    (fun pa na => c_PUCT * pa * sqrtfn Ns.sum / (na + 1)) P Ns
  List.zipWith (fun q e => (q.1 + e, q.2 + e))
    (children.map (fun p => playerRow p.2.Q cp)) expl

/-- ActionNode.computePUCT (source lines 116-142): compute the scores, take
the first argmax of the lower bounds and its value m, and return the
children's interval table together with the candidate indices, i.e. all i
with score[i, upper] >= m. -/
def computePUCT (sqrtfn : ℚ → ℚ) (cp : ℕ) (P : List ℚ)
    (children : List (ℕ × Node)) : Except PyErr (List IArr × List ℕ) :=
  match puct_scores sqrtfn cp P children with
  | .error e => .error e
  | .ok PUCT =>
    let lowers := PUCT.map (fun s => s.1)
    let uppers := PUCT.map (fun s => s.2)
    let mli := argmaxFirst lowers
    let ml := lowers.getD mli 0
    let idxs := (List.range PUCT.length).filter (fun i => ml ≤ uppers.getD i 0)
    .ok (children.map (fun p => p.2.Q), idxs)

/-- ActionNode.expand (source lines 105-114): query the evaluator, seed Q
from the returned V, and create one child per action — a sampling node when
the acting player changes and hidden information remains, a decision node
otherwise — seeding each child's Q from Vc.  Returns the updated node data,
the new Q, and the children. -/
def expandA (m : Model) (is : InfoSet) (cp : ℕ) (d : AData) :
    AData × IArr × List (ℕ × Node) :=
  match m.action_eval is with
  | (P, V, Vc) =>
    let children := d.actions.map (fun a =>
      let is2 := is.apply a
      if cp ≠ is2.get_current_player ∧ is2.has_hidden_info = true then
        (a, mkSamplingNode is2 (Vc.getD a (.interval DUMMY_INTERVAL_ARRAY)))
      else
        (a, mkActionNode is2 (Vc.getD a (.interval DUMMY_INTERVAL_ARRAY))))
    ({ d with P := some P, V := some V, Vc := some Vc },
     to_interval_array V, children)

/-- The child created for hidden value h in SamplingNode.expand (source
lines 274-279): instantiate the hidden state; a sampling node if hidden
information remains (the source also asserts the player is unchanged),
otherwise a decision node; seeded from Vc[h]. -/
def sChild (m : Model) (is : InfoSet) (Vc : List IAL) (h : ℕ) : Node :=
  let is2 := is.instantiate_hidden_state h
  if is2.has_hidden_info = true then
    mkSamplingNode is2 (Vc.getD h (.interval DUMMY_INTERVAL_ARRAY))
  else
    mkActionNode is2 (Vc.getD h (.interval DUMMY_INTERVAL_ARRAY))

/-- SamplingNode.expand (source lines 268-284): query the evaluator, mask
and renormalize the belief, create one child per legal hidden value (the
indices h with H_mask[h], i.e. np.where(self.H_mask)[0]), record each
child's Q into the row h of Qc (initialized to zeros over len(H) rows; the
mask and the belief have the same length under the information-set
contract), and finally seed the node's own Q from V. -/
def expandS (m : Model) (is : InfoSet) (d : SData) :
    SData × IArr × List (ℕ × Node) :=
  match m.hidden_eval is with
  | (H0, V, Vc) =>
    let H := apply_H_mask H0 d.H_mask
    let legal := (List.range d.H_mask.length).filter
      (fun h => d.H_mask.getD h false)
    let children := legal.map (fun h => (h, sChild m is Vc h))
    let Qc := legal.foldl
      (fun acc h => acc.set h (sChild m is Vc h).Q)
      (List.replicate H.length DUMMY_INTERVAL_ARRAY)
    ({ d with H := some H, V := some V, Vc := some Vc, Qc := some Qc },
     to_interval_array V, children)

/-- Replacement of the child stored under a key after its recursive visit
(in Python the child object is mutated in place inside the dict). -/
def assocSet (l : List (ℕ × Node)) (k : ℕ) (v : Node) : List (ℕ × Node) :=
  l.map (fun p => if p.1 = k then (k, v) else p)

/-- The selection step of ActionNode.visit (source lines 164-174), applied
after computePUCT has returned the candidate indices: in the pure case
(exactly one candidate) increment n_pure and fold the one-hot distribution
into PURE; otherwise increment n_mixed and call get_mixing_distribution —
which raises UnboundLocalError, so the error is returned with n_mixed
already incremented and the sampling and MIXED update below it (translated
faithfully all the same) are dead code.  Returns the possible error, the
updated node data and the selected action index. -/
def selectStep (pick : List ℚ → ℕ) (d : AData) (P : List ℚ)
    (idxs : List ℕ) : Option PyErr × AData × ℕ :=
  if idxs.length = 1 then
    let action_index := idxs.getD 0 0
    let n_pure' := d.n_pure + 1
    let PURE' := runningAvg d.PURE (oneHot P.length action_index) n_pure'
    (none, { d with n_pure := n_pure', PURE := PURE' }, action_index)
  else
    let d1 := { d with n_mixed := d.n_mixed + 1 }
    match get_mixing_distribution P idxs with
    | .error e => (some e, d1, 0)
    | .ok mixing_distr =>
      let action_index := pick mixing_distr
      (none, { d1 with MIXED := runningAvg d.MIXED mixing_distr d1.n_mixed },
       action_index)

/-- The backup of ActionNode.visit (source lines 176-179):
Q = (n_mixed * E_mixed + n_pure * E_pure) / (n_mixed + n_pure) with
E_mixed and E_pure the MIXED- and PURE-weighted sums over the interval
table Qc that computePUCT returned. -/
def backupQ (Qc : List IArr) (d : AData) : IArr :=
  let E_mixed := weightedSum Qc d.MIXED
  let E_pure := weightedSum Qc d.PURE
  idivs (iadd (iscale (d.n_mixed : ℚ) E_mixed) (iscale (d.n_pure : ℚ) E_pure))
    ((d.n_mixed : ℚ) + (d.n_pure : ℚ))

/-- ActionNode.visit (source lines 153-183) for one node, parameterized by
the recursive visit `recurse` applied to the selected child: increment N;
return at a terminal node; expand and return on the first visit; otherwise
select via computePUCT, update the running distributions and counters,
recompute Q from the returned Qc (note: this happens before the recursive
child visit), and recurse into the selected child.  Any exception raised on
the way leaves the mutations already performed visible in the returned
node. -/
def stepAction (m : Model) (pick : List ℚ → ℕ) (sqrtfn : ℚ → ℚ)
    (recurse : Node → Option PyErr × Node)
    (is : InfoSet) (cp : ℕ) (go : Option (ℚ × ℚ)) (Q : IArr) (N : ℕ)
    (d : AData) (children : List (ℕ × Node)) : Option PyErr × Node :=
  let N' := N + 1
  if go.isSome then (none, .mk is cp go Q N' (.action d) children)
  else
    match d.P with
    | none =>
      match expandA m is cp d with
      | (d', Q', children') =>
        (none, .mk is cp go Q' N' (.action d') children')
    | some P =>
      match computePUCT sqrtfn cp P children with
      | .error e => (some e, .mk is cp go Q N' (.action d) children)
      | .ok (Qc, idxs) =>
        match selectStep pick d P idxs with
        | (some e, d', _) => (some e, .mk is cp go Q N' (.action d') children)
        | (none, d', action_index) =>
          let Qnew := backupQ Qc d'
          let action := d'.actions.getD action_index 0
          match children.lookup action with
          | none => (some .keyError, .mk is cp go Qnew N' (.action d') children)
          | some child =>
            match recurse child with
            | (err, child') =>
              (err, .mk is cp go Qnew N' (.action d')
                (assocSet children action child'))

/-- SamplingNode.visit (source lines 286-296) for one node, parameterized by
the recursive visit: increment N and expand on the first visit.  The source
has no return statement after self.expand(model) (unlike ActionNode.visit),
so every visit — the expansion visit included — continues: it draws a hidden
value c from H (the `pick` oracle stands for np.random.choice) and calls
Phi, which raises TypeError on every call, so the recursive visit of
children[c] below the Phi call (translated faithfully all the same) is dead
code. -/
def stepSampling (m : Model) (pick : List ℚ → ℕ)
    (recurse : Node → Option PyErr × Node)
    (is : InfoSet) (cp : ℕ) (go : Option (ℚ × ℚ)) (Q : IArr) (N : ℕ)
    (d : SData) (children : List (ℕ × Node)) : Option PyErr × Node :=
  let N' := N + 1
  match (match d.H with
         | none => expandS m is d
         | some _ => (d, Q, children)) with
  | (d', Q', children') =>
    let Hl := d'.H.getD []
    let c := pick Hl
    match Phi c PHI_EPS (d'.Qc.getD []) Hl with
    | .error e => (some e, .mk is cp go Q' N' (.sampling d') children')
    | .ok _ =>
      match children'.lookup c with
      | none => (some .keyError, .mk is cp go Q' N' (.sampling d') children')
      | some child =>
        match recurse child with
        | (err, child') =>
          (err, .mk is cp go Q' N' (.sampling d')
            (assocSet children' c child'))

/-- The recursive visit, dispatching on the node kind (Node.visit is
abstract in the source; the two overrides are stepAction and stepSampling).
The fuel argument only bounds the recursion depth for termination; every
theorem below supplies enough fuel for the paths it exercises. -/
def visit (m : Model) (pick : List ℚ → ℕ) (sqrtfn : ℚ → ℚ) :
    ℕ → Node → Option PyErr × Node
  | 0, n => (some .fuelExhausted, n)
  | fuel + 1, .mk is cp go Q N (.action d) children =>
    stepAction m pick sqrtfn (visit m pick sqrtfn fuel) is cp go Q N d children
  | fuel + 1, .mk is cp go Q N (.sampling d) children =>
    stepSampling m pick (visit m pick sqrtfn fuel) is cp go Q N d children

/-- The search tree (source lines 299-305): shares the evaluator and owns
the root decision node. -/
structure Tree where
  model : Model
  root : Node

/-- Tree.visit (source lines 304-305).  The body is self.root.visit():
ActionNode.visit takes the positional parameter model, so this call raises
TypeError (missing required argument) before entering the visit body — the
model the tree owns is never passed through, no node is mutated and no
simulation is performed. -/
def Tree.visit (t : Tree) : Option PyErr × Tree :=
  (some .typeError, t)

/-! Concrete scenario constants used by the closed theorems and witnesses
below.  They describe a tiny two-action game position: a non-terminal child
information set, a terminal child information set, and a parent with the two
public actions 0 and 1. -/

/-- A deterministic stand-in for the random oracle (never consulted on any
path actually exercised below: the mixed case and the sampling recursion
both raise first). -/
def pick0 : List ℚ → ℕ := fun _ => 0

/-- A non-terminal information set without actions or hidden information. -/
def is_c0 : InfoSet := .mk false 0 none [] [] [] []

/-- A terminal information set with outcome 0 for both players. -/
def is_c1 : InfoSet := .mk false 0 (some (0, 0)) [] [] [] []

/-- The parent information set with the two public actions 0 and 1. -/
def is_p : InfoSet := .mk false 0 none [0, 1] [] [] []

/-- An information set with one legal hidden value (index 0). -/
def is_s : InfoSet := .mk true 0 none [] [true] [] []

/-- A concrete evaluator: action evaluation returns an empty prior, the
value (3, 3) and no child values (the child information sets carry no
actions); hidden evaluation returns the point belief [1] on hidden value 0
with value (0, 0). -/
def m0 : Model :=
  { action_eval := fun _ => ([], .scalar (3, 3), []),
    hidden_eval := fun _ => ([1], .scalar (0, 0), [.scalar (0, 0)]) }

/-- A not-yet-expanded non-terminal decision node seeded with Q = (5, 5). -/
def child0 : Node := mkActionNode is_c0 (.scalar (5, 5))

/-- A terminal decision node (Q pinned to the outcome (0, 0)). -/
def child1 : Node := mkActionNode is_c1 (.scalar (0, 0))

/-- The decision-node data of parent0: prior (1/2, 1/2) over the two
actions, freshly expanded (no pure or mixed visits yet). -/
def pd0 : AData :=
  { actions := [0, 1], P := some [1/2, 1/2],
    V := some (.scalar (1, 1)),
    Vc := some [.scalar (5, 5), .scalar (0, 0)],
    PURE := [0, 0], MIXED := [0, 0], n_mixed := 0, n_pure := 0 }

/-- An expanded decision node over actions [0, 1] with prior (1/2, 1/2),
one visit so far (its expansion), and the two children above.  Visiting it
selects action 0 in the pure case (scores (5,5) vs (0,0) with zero
exploration term, as both children have N = 0). -/
def parent0 : Node :=
  .mk is_p 0 none ((1, 1), (1, 1)) 1 (.action pd0) [(0, child0), (1, child1)]

/-- A fresh (unexpanded) sampling node over the one-hidden-value mask. -/
def snode0 : Node := mkSamplingNode is_s (.scalar (0, 0))

/-- A terminal decision node used as the single child of a one-action
parent in the conservation witness. -/
def cTerm : Node := mkActionNode is_c1 (.scalar (0, 0))

/-- The decision-node data of parent1: a single action with prior [1]. -/
def pd1 : AData :=
  { actions := [0], P := some [1],
    V := some (.scalar (0, 0)), Vc := some [.scalar (0, 0)],
    PURE := [0], MIXED := [0], n_mixed := 0, n_pure := 0 }

/-- An expanded decision node with a single action whose child is terminal:
its visits always take the pure case and complete without error. -/
def parent1 : Node :=
  .mk (.mk false 0 none [0] [] [] []) 0 none ((0, 0), (0, 0)) 1
    (.action pd1) [(0, cTerm)]

/-- A non-terminal node with N = 0 and Q = 0, used as a 2-children and
3-children scoring example together with cB below. -/
def cA : Node := mkActionNode is_c0 (.scalar (0, 0))

/-- Like cA but with one recorded visit (N = 1). -/
def cB : Node :=
  .mk is_c0 0 none ((0, 0), (0, 0)) 1
    (.action { actions := [], P := none, V := none, Vc := none,
               PURE := [], MIXED := [], n_mixed := 0, n_pure := 0 }) []

/-- Prior used in the two-action scoring example. -/
def P2c : List ℚ := [3/4, 1/4]

/-- Children used in the two-action scoring example: visit counts 0 and 1,
all interval values 0, so sum N = 1 and the exploration terms are
3/4 / 1 = 3/4 for action 0 and 1/4 / 2 = 1/8 for action 1. -/
def ch2c : List (ℕ × Node) := [(0, cA), (1, cB)]

/-- Prior used in the three-action example. -/
def P3c : List ℚ := [1/3, 1/3, 1/3]

/-- Three children: numpy cannot broadcast shape (3,) against (3, 2). -/
def ch3c : List (ℕ × Node) := [(0, cA), (1, cA), (2, cA)]

/-- The backup recomputation exactly as claim C4 states it: after the
recursive child visit, Q = (n_mixed * E_mixed + n_pure * E_pure) /
(n_mixed + n_pure) where E_pure and E_mixed weight the children's current
Q values — read fresh from the node as it stands after the visit.  This
definition follows the claim's words and is compared against what visit
actually stores. -/
def specFreshBackup (n : Node) : IArr :=
  match n.kind with
  | .action d => backupQ (n.children.map (fun p => p.2.Q)) d
  | .sampling _ => DUMMY_INTERVAL_ARRAY

/-- The sampling-node data of the belief-normalization witness: mask
[true, false] (hidden value 1 illegal), not yet expanded. -/
def sdW : SData :=
  { H := none, V := none, Vc := none, Qc := none, H_mask := [true, false] }

/-- The evaluator of the belief-normalization witness: its hidden
evaluation returns the belief [1/2, 1/2], which the mask [true, false]
collapses to [1, 0] (the spec's own concrete scenario). -/
def mW : Model :=
  { action_eval := fun _ => ([], .scalar (0, 0), []),
    hidden_eval := fun _ => ([1/2, 1/2], .scalar (0, 0),
      [.scalar (0, 0), .scalar (0, 0)]) }

/-!  Reconstruction of the intended Phi.  The code below the failing
np.zeros(NUM_PLAYERS, 2) line of SamplingNode.Phi (source lines 234-256) is
dead, but it is translated here — with the single evident fix, allocating
the output as np.zeros((NUM_PLAYERS, 2)) — so that the boundary behaviour
the claims attribute to Phi can be examined against what the function was
meant to compute. -/

/-- Cell Q[i, p, j] of a hidden-value interval table (j = 0 lower,
j = 1 upper). -/
def qcell (Q : List IArr) (i p j : ℕ) : ℚ :=
  let pl := playerRow (Q.getD i DUMMY_INTERVAL_ARRAY) p
  if j = 0 then pl.1 else pl.2

/-- Insertion of an index into an index list sorted by key (stable:
an index is placed before any later index of equal key). -/
def insertByKey (key : ℕ → ℚ) (i : ℕ) : List ℕ → List ℕ
  | [] => [i]
  | j :: t => if key i ≤ key j then i :: j :: t else j :: insertByKey key i t

/-- An argsort of the indices 0, ..., n-1 by key, ascending, as np.argsort
produces (numpy's tie order is implementation-defined; ties are irrelevant
to every property derived below). -/
def argsortN (key : ℕ → ℚ) (n : ℕ) : List ℕ :=
  (List.range n).foldr (insertByKey key) []

/-- The inner water-filling sweep of Phi (source lines 245-249): walk the
given index ordering; at each index move step * eps_to_use where
eps_to_use = min(remaining_eps, eps_limit[i]); subtract the used amount
from the budget and stop once it is exhausted (checked after the update,
as in the source).  Returns the updated belief and the unused budget. -/
def sweepLoop (step : ℚ) (eps_limit : List ℚ) :
    List ℕ → ℚ → List ℚ → List ℚ × ℚ
  | [], rem, Hp => (Hp, rem)
  | i :: rest, rem, Hp =>
    let eps_to_use := min rem (eps_limit.getD i 0)
    let Hp' := Hp.set i (Hp.getD i 0 + step * eps_to_use)
    let rem' := rem - eps_to_use
    if rem' ≤ 0 then (Hp', rem')
    else sweepLoop step eps_limit rest rem' Hp'

/-- One (player, bound) cell of the intended Phi (source lines 234-256):
index_sign = 1 - 2 * index; sort hidden states by the per-state extreme
-Q[:, p, 1 - index] with the sampled state c pinned to -Q[c, p, index];
run the two directional sweeps (direction -1 walks the ordering reversed,
direction 1 forward, the limits taken as 1 - H_prime when the direction
matches index_sign and H_prime otherwise, re-read from the current
H_prime); finally return np.dot(one_c - H_prime, q) with q the per-state
extremes and q[c] pinned to the matching endpoint. -/
def phiCellFixed (c : ℕ) (eps : ℚ) (Q : List IArr) (H : List ℚ)
    (p index : ℕ) : ℚ :=
  let n := H.length
  let index_sign : ℚ := 1 - 2 * (index : ℚ)
  let key : ℕ → ℚ :=
    fun i => if i = c then -(qcell Q c p index) else -(qcell Q i p (1 - index))
  let ordering := argsortN key n
  let lim1 := if (-1 : ℚ) = index_sign then H.map (fun h => 1 - h) else H
  let Hp1 := (sweepLoop (index_sign * (-1)) lim1 ordering.reverse eps H).1
  let lim2 := if (1 : ℚ) = index_sign then Hp1.map (fun h => 1 - h) else Hp1
  let Hp2 := (sweepLoop (index_sign * 1) lim2 ordering eps Hp1).1
  let q : ℕ → ℚ :=
    fun i => if i = c then qcell Q c p index else qcell Q i p (1 - index)
  let one_c : ℕ → ℚ := fun i => if i = c then 1 else 0
  ((List.range n).map (fun i => (one_c i - Hp2.getD i 0) * q i)).sum

/-- The intended Phi: the water-filling computation per player and bound,
assembled into the (NUM_PLAYERS, 2) output the source meant to allocate. -/
def PhiFixed (c : ℕ) (eps : ℚ) (Q : List IArr) (H : List ℚ) : IArr :=
  ((phiCellFixed c eps Q H 0 0, phiCellFixed c eps Q H 0 1),
   (phiCellFixed c eps Q H 1 0, phiCellFixed c eps Q H 1 1))

/-- The boundary value claim C5 attributes to Phi at eps = 0:
Q[c] - sum_i H[i] * Q[i], with state c at the matching endpoint (index)
and every other state at the opposite endpoint, per player and bound.
This definition follows the claim's words. -/
def phiExpect (c : ℕ) (Q : List IArr) (H : List ℚ) (p index : ℕ) : ℚ :=
  qcell Q c p index -
    ((List.range H.length).map (fun i =>
      H.getD i 0 * (if i = c then qcell Q c p index
                    else qcell Q i p (1 - index)))).sum

/-- A two-hidden-value interval table for the widening example: state 0 is
worth exactly 0, state 1 is worth somewhere in [1, 2], identically for both
players. -/
def QW : List IArr := [((0, 0), (0, 0)), ((1, 2), (1, 2))]

/-- The uniform belief over the two hidden values of the example. -/
def HW : List ℚ := [1/2, 1/2]

/-!  Theorems.  Each claim of the specification review is settled by exactly
one theorem below (witnesses and counterexamples are separate closed
theorems). -/

/-- Claim C1: the claim states that Tree.visit invokes the root's visit
procedure passing the evaluator through, so that each call performs one
complete simulation.  In the source, Tree.visit calls self.root.visit()
without the model argument, which raises TypeError before anything runs:
for every tree, Tree.visit returns the TypeError and leaves the tree — in
particular the root node and its visit count — completely unchanged, and no
simulation is performed. -/
theorem c1_tree_visit_omits_model :
    ∀ t : Tree, Tree.visit t = (some PyErr.typeError, t) :=
  fun _ => rfl

/-- Claim C2: the claim states that the mixed case restricts the prior P to
the candidate set, renormalizes and samples from it.  In the source,
get_mixing_distribution raises UnboundLocalError on every call (its first
line reads the local name P before P is assigned), for every prior and
every candidate index set, so no restriction, renormalization or sampling
ever happens. -/
theorem c2_mixing_distribution_raises :
    ∀ (P : List ℚ) (action_indices : List ℕ),
      get_mixing_distribution P action_indices = .error .unboundLocalError :=
  fun _ _ => rfl

/-- Claim C5: the claim states that Phi with eps = 0 returns
Q[c] - sum_i H[i] * Q[i] at the matching interval endpoints.  In the
source, Phi raises TypeError on every call — np.zeros(NUM_PLAYERS, 2)
passes 2 as the dtype — so in particular with eps = 0 it never returns any
value at all. -/
theorem c5_phi_eps_zero_raises :
    ∀ (c : ℕ) (Q : List IArr) (H : List ℚ),
      Phi c 0 Q H = .error .typeError :=
  fun _ _ _ => rfl

/-- Claim C9: the claim states that the interval returned by Phi grows with
the perturbation budget eps.  In the source, Phi never returns an interval
for any budget: for all eps1 and eps2 the result is the same TypeError
(np.zeros(NUM_PLAYERS, 2) passes 2 as the dtype), so there are no returned
intervals to compare. -/
theorem c9_phi_no_interval_for_any_eps :
    ∀ (c : ℕ) (Q : List IArr) (H : List ℚ) (eps1 eps2 : ℚ),
      Phi c eps1 Q H = Phi c eps2 Q H ∧ Phi c eps1 Q H = .error .typeError :=
  fun _ _ _ _ _ => ⟨rfl, rfl⟩

/-- Claim C6: the claim states the per-action selection score
score[a, bound] = Q[a, cp, bound] + C * P[a] * sqrt(sum N) / (N[a] + 1).
In the source, the exploration vector of shape (c,) is broadcast against
Q[:, cp] of shape (c, 2) along the bound axis: with the two-action example
(P = [3/4, 1/4], child visit counts [0, 1], all child values 0) the code
produces score rows (3/4, 1/8) for both actions — each bound receives the
exploration term of the like-indexed action — while the spec formula gives
(3/4, 3/4) for action 0 and (1/8, 1/8) for action 1; and with three
actions the broadcast raises ValueError outright. -/
theorem c6_puct_scores_mismatch :
    puct_scores ratSqrt 0 P2c ch2c = .ok [(3/4, 1/8), (3/4, 1/8)] ∧
    spec_scores ratSqrt 0 P2c ch2c = [(3/4, 3/4), (1/8, 1/8)] ∧
    puct_scores ratSqrt 0 P2c ch2c ≠ .ok (spec_scores ratSqrt 0 P2c ch2c) ∧
    puct_scores ratSqrt 0 P3c ch3c = .error .valueError := by
  refine ⟨?_, ?_, ?_, ?_⟩ <;>
    norm_num [puct_scores, spec_scores, puctBroadcastAdd, playerRow,
      ratSqrt, c_PUCT, P2c, P3c, ch2c, ch3c, cA, cB, mkActionNode,
      is_c0, InfoSet.get_game_outcome, InfoSet.get_actions,
      InfoSet.get_current_player, to_interval_array, Node.N, Node.Q,
      Node.kind, Nat.sqrt]

/-- Claim C3: the claim states that the visit that expands a sampling node
terminates there, with hidden-value sampling only on later visits.  In the
source, SamplingNode.visit has no return after self.expand(model): on the
very visit that performs the expansion (H was still None), control falls
through into the hidden-sampling phase — the belief is set (expansion did
happen) and N is incremented, but instead of returning cleanly the visit
draws a hidden value and calls Phi, which raises TypeError; so the
expansion visit does not terminate at expansion, for every model, oracle
and node state. -/
theorem c3_expansion_visit_continues
    (m : Model) (pick : List ℚ → ℕ) (sqrtfn : ℚ → ℚ) (fuel : ℕ)
    (is : InfoSet) (cp : ℕ) (go : Option (ℚ × ℚ)) (Q : IArr) (N : ℕ)
    (d : SData) (children : List (ℕ × Node))
    (hH : d.H = none) :
    (visit m pick sqrtfn (fuel + 1) (.mk is cp go Q N (.sampling d) children)).1
        = some PyErr.typeError ∧
    ((visit m pick sqrtfn (fuel + 1)
        (.mk is cp go Q N (.sampling d) children)).2.Hfield).isSome = true ∧
    (visit m pick sqrtfn (fuel + 1)
        (.mk is cp go Q N (.sampling d) children)).2.N = N + 1 := by
  simp [visit, stepSampling, hH, expandS, Phi, Node.Hfield, Node.N, Node.kind]

/-- Witness for C3 at a concrete fresh sampling node: its first visit
expands it and then aborts with the TypeError from Phi instead of
returning. -/
theorem c3_witness :
    (visit m0 pick0 ratSqrt 1 snode0).1 = some PyErr.typeError ∧
    ((visit m0 pick0 ratSqrt 1 snode0).2.Hfield).isSome = true ∧
    (visit m0 pick0 ratSqrt 1 snode0).2.N = 0 + 1 :=
  c3_expansion_visit_continues m0 pick0 ratSqrt 0 is_s
    is_s.get_current_player is_s.get_game_outcome
    (to_interval_array (.scalar (0, 0))) 0 _ [] rfl

/-- Claim C4, amended: the source does recompute Q as
(n_mixed * E_mixed + n_pure * E_pure) / (n_mixed + n_pure), but it does so
before the recursive visit into the selected child, over the child values
Qc returned by computePUCT at selection time.  Accordingly, on a
non-terminal, expanded, pure-case visit, the node's new Q equals backupQ
applied to the selection-time Qc and the updated distributions — and this
is so for an arbitrary recursion function, i.e. whatever the child visit
does or returns cannot influence the Q that is stored (so the
just-completed child visit is not reflected, contrary to the claim's
after-recursion, re-read-fresh reading). -/
theorem c4_backup_before_recursion
    (m : Model) (pick : List ℚ → ℕ) (sqrtfn : ℚ → ℚ) (fuel : ℕ)
    (is : InfoSet) (cp : ℕ) (Q : IArr) (N : ℕ) (d : AData)
    (children : List (ℕ × Node)) (P : List ℚ) (Qc : List IArr) (ai : ℕ)
    (hP : d.P = some P)
    (hpuct : computePUCT sqrtfn cp P children = .ok (Qc, [ai])) :
    (∀ recurse,
      (stepAction m pick sqrtfn recurse is cp none Q N d children).2.Q
        = backupQ Qc ((selectStep pick d P [ai]).2.1)) ∧
    (visit m pick sqrtfn (fuel + 1) (.mk is cp none Q N (.action d) children)).2.Q
        = backupQ Qc ((selectStep pick d P [ai]).2.1) := by
  have step : ∀ recurse,
      (stepAction m pick sqrtfn recurse is cp none Q N d children).2.Q
        = backupQ Qc ((selectStep pick d P [ai]).2.1) := by
    intro recurse
    simp only [stepAction, hP, hpuct, Option.isSome_none, Bool.false_eq_true,
      if_false]
    simp only [selectStep, List.length_singleton, if_true]
    cases h : children.lookup ((({ d with
        n_pure := d.n_pure + 1,
        PURE := runningAvg d.PURE (oneHot P.length ([ai].getD 0 0))
          (d.n_pure + 1) } : AData)).actions.getD ([ai].getD 0 0) 0) with
    | none => simp [Node.Q]
    | some child => cases hr : recurse child with
      | mk err child' => simp [Node.Q]
  exact ⟨step, by simpa [visit] using step (visit m pick sqrtfn fuel)⟩

/-- Witness for the amended C4 at the concrete two-action node parent0:
the Q stored by the visit equals the backup formula over the
selection-time child values (5,5) and (0,0). -/
theorem c4_witness :
    (visit m0 pick0 ratSqrt 3 parent0).2.Q
      = backupQ [((5, 5), (5, 5)), ((0, 0), (0, 0))]
          ((selectStep pick0 pd0 [1/2, 1/2] [0]).2.1) :=
  (c4_backup_before_recursion m0 pick0 ratSqrt 2 is_p 0 ((1, 1), (1, 1)) 1
    pd0 [(0, child0), (1, child1)] [1/2, 1/2]
    [((5, 5), (5, 5)), ((0, 0), (0, 0))] 0 rfl
    (by norm_num [computePUCT, puct_scores, puctBroadcastAdd, playerRow,
      ratSqrt, c_PUCT, child0, child1, is_c0, is_c1, mkActionNode,
      InfoSet.get_game_outcome, InfoSet.get_actions,
      InfoSet.get_current_player, to_interval_array, Node.N, Node.Q,
      Node.kind, Nat.sqrt, argmaxFirst, argmaxAux, List.range,
      List.range.loop, List.filter])).2

/-- Counterexample to C4 as stated: visiting parent0 completes one
simulation without error (pure case into child0, whose expansion raises its
Q from the seed (5,5) to the evaluator value (3,3)); the parent's stored Q
is ((5,5),(5,5)) — computed from the child values read at selection time,
before the recursive visit — whereas the claim's formula over the
children's current (fresh, post-recursion) Q values yields ((3,3),(3,3)).
The two disagree, so the backup neither happens after the recursion nor
re-reads the child Q fresh at backup time. -/
theorem c4_counterexample :
    (visit m0 pick0 ratSqrt 5 parent0).1 = none ∧
    (visit m0 pick0 ratSqrt 5 parent0).2.Q = ((5, 5), (5, 5)) ∧
    specFreshBackup (visit m0 pick0 ratSqrt 5 parent0).2 = ((3, 3), (3, 3)) ∧
    (visit m0 pick0 ratSqrt 5 parent0).2.Q
      ≠ specFreshBackup (visit m0 pick0 ratSqrt 5 parent0).2 := by
  refine ⟨?_, ?_, ?_, ?_⟩ <;>
    norm_num [visit, stepAction, stepSampling, computePUCT, puct_scores,
      puctBroadcastAdd, selectStep, backupQ, weightedSum, expandA, expandS,
      parent0, pd0, child0, child1, is_p, is_c0, is_c1, m0, pick0,
      mkActionNode, mkSamplingNode, InfoSet.get_game_outcome,
      InfoSet.get_actions, InfoSet.get_current_player, InfoSet.get_H_mask,
      InfoSet.apply, InfoSet.has_hidden_info,
      InfoSet.instantiate_hidden_state, Node.N, Node.Q, Node.kind,
      Node.children, playerRow, argmaxFirst, argmaxAux, ratSqrt,
      to_interval_array, iadd, iscale, idivs, oneHot, runningAvg,
      zerosList, assocSet, get_mixing_distribution, Phi, c_PUCT,
      DUMMY_INTERVAL_ARRAY, specFreshBackup, List.range, List.range.loop,
      List.filter, List.lookup]

/-- The selection step increments exactly one of the two counters: in the
pure case n_pure, in the mixed case n_mixed (even though the mixed case
then raises, the increment has already been performed on the object). -/
theorem selectStep_counter (pick : List ℚ → ℕ) (d : AData) (P : List ℚ)
    (idxs : List ℕ) :
    ((selectStep pick d P idxs).2.1).n_pure
        + ((selectStep pick d P idxs).2.1).n_mixed
      = d.n_pure + d.n_mixed + 1 := by
  by_cases h : idxs.length = 1 <;>
    simp [selectStep, h, get_mixing_distribution] <;> omega

/-- Claim C8: on a non-terminal, already-expanded decision node whose
selection step runs (computePUCT returns a candidate set), a visit
increments N by one and increments n_pure + n_mixed by exactly one —
whatever then happens further down (mixed-case UnboundLocalError, missing
child, or the recursive child visit and backup) — so the conservation
n_pure + n_mixed = N - 1 is preserved by every visit that reaches
selection, and in particular holds after every backup.  (The expansion
visit itself increments N but neither counter, establishing the equation at
N = 1; terminal nodes never reach this path.) -/
theorem c8_counter_conservation
    (m : Model) (pick : List ℚ → ℕ) (sqrtfn : ℚ → ℚ) (fuel : ℕ)
    (is : InfoSet) (cp : ℕ) (Q : IArr) (N : ℕ) (d : AData)
    (children : List (ℕ × Node)) (P : List ℚ) (Qc : List IArr)
    (idxs : List ℕ)
    (hP : d.P = some P)
    (hpuct : computePUCT sqrtfn cp P children = .ok (Qc, idxs)) :
    (visit m pick sqrtfn (fuel + 1)
        (.mk is cp none Q N (.action d) children)).2.N = N + 1 ∧
    (visit m pick sqrtfn (fuel + 1)
          (.mk is cp none Q N (.action d) children)).2.n_pure
        + (visit m pick sqrtfn (fuel + 1)
          (.mk is cp none Q N (.action d) children)).2.n_mixed
      = d.n_pure + d.n_mixed + 1 ∧
    (d.n_pure + d.n_mixed + 1 = N →
      (visit m pick sqrtfn (fuel + 1)
            (.mk is cp none Q N (.action d) children)).2.n_pure
          + (visit m pick sqrtfn (fuel + 1)
            (.mk is cp none Q N (.action d) children)).2.n_mixed + 1
        = (visit m pick sqrtfn (fuel + 1)
            (.mk is cp none Q N (.action d) children)).2.N) := by
  rcases hsel : selectStep pick d P idxs with ⟨e, d', ai⟩
  have hc : d'.n_pure + d'.n_mixed = d.n_pure + d.n_mixed + 1 := by
    have h0 := selectStep_counter pick d P idxs
    rw [hsel] at h0
    exact h0
  cases e with
  | some err =>
    simp only [visit, stepAction, hP, hpuct, Option.isSome_none,
      Bool.false_eq_true, if_false, hsel, Node.N, Node.n_pure,
      Node.n_mixed, Node.kind]
    refine ⟨trivial, ?_, ?_⟩ <;> omega
  | none =>
    simp only [visit, stepAction, hP, hpuct, Option.isSome_none,
      Bool.false_eq_true, if_false, hsel]
    refine ⟨?_, ?_, ?_⟩ <;> split <;>
      simp only [Node.N, Node.n_pure, Node.n_mixed, Node.kind] <;> omega

/-- Witness for C8 at the concrete one-action node parent1 (N = 1 after its
expansion, counters 0): a visit takes the pure case into the terminal
child, N becomes 2 and n_pure + n_mixed becomes 1, preserving
n_pure + n_mixed = N - 1. -/
theorem c8_witness :
    (visit m0 pick0 ratSqrt 2 parent1).2.N = 1 + 1 ∧
    (visit m0 pick0 ratSqrt 2 parent1).2.n_pure
        + (visit m0 pick0 ratSqrt 2 parent1).2.n_mixed
      = pd1.n_pure + pd1.n_mixed + 1 ∧
    (pd1.n_pure + pd1.n_mixed + 1 = 1 →
      (visit m0 pick0 ratSqrt 2 parent1).2.n_pure
          + (visit m0 pick0 ratSqrt 2 parent1).2.n_mixed + 1
        = (visit m0 pick0 ratSqrt 2 parent1).2.N) :=
  c8_counter_conservation m0 pick0 ratSqrt 1 (.mk false 0 none [0] [] [] [])
    0 ((0, 0), (0, 0)) 1 pd1 [(0, cTerm)] [1] [((0, 0), (0, 0))] [0] rfl
    (by norm_num [computePUCT, puct_scores, puctBroadcastAdd, playerRow,
      ratSqrt, c_PUCT, cTerm, is_c1, mkActionNode,
      InfoSet.get_game_outcome, InfoSet.get_actions,
      InfoSet.get_current_player, to_interval_array, Node.N, Node.Q,
      Node.kind, Nat.sqrt, argmaxFirst, argmaxAux, List.range,
      List.range.loop, List.filter])

/-- Dividing every entry of a list divides its sum. -/
theorem sum_map_div (l : List ℚ) (c : ℚ) :
    (l.map (fun x => x / c)).sum = l.sum / c := by
  induction l with
  | nil => simp
  | cons a t ih => simp [ih, add_div]

/-- boolToRat is nonnegative. -/
theorem boolToRat_nonneg (b : Bool) : 0 ≤ boolToRat b := by
  cases b <;> simp [boolToRat]

/-- The numeric sum of a boolean mask is nonnegative. -/
theorem boolSum_nonneg (mask : List Bool) : 0 ≤ (mask.map boolToRat).sum := by
  induction mask with
  | nil => simp
  | cons b t ih =>
    simp only [List.map_cons, List.sum_cons]
    have := boolToRat_nonneg b
    linarith

/-- The numeric sum of a boolean mask with at least one set entry is
positive (np.sum of the mask counts its True entries). -/
theorem boolSum_pos (mask : List Bool) (h : mask.any id = true) :
    0 < (mask.map boolToRat).sum := by
  induction mask with
  | nil => simp at h
  | cons b t ih =>
    simp only [List.any_cons, id, Bool.or_eq_true] at h
    cases b with
    | true =>
      have hb : boolToRat true = 1 := rfl
      simp only [List.map_cons, List.sum_cons, hb]
      have := boolSum_nonneg t
      linarith
    | false =>
      have hb : boolToRat false = 0 := rfl
      simp only [List.map_cons, List.sum_cons, hb]
      have ht : t.any id = true := by
        rcases h with h | h
        · cases h
        · exact h
      have := ih ht
      linarith

/-- Entry i of the masked belief H * mask, as an optional lookup. -/
theorem masked_H_getElem? (H : List ℚ) (mask : List Bool) (i : ℕ) :
    (masked_H H mask)[i]? =
      match H[i]?, mask[i]? with
      | some a, some b => some (a * boolToRat b)
      | _, _ => none := by
  induction H generalizing mask i with
  | nil => cases mask <;> cases i <;> simp [masked_H]
  | cons a t ih =>
    cases mask with
    | nil => cases i <;> simp [masked_H]
    | cons b tb =>
      cases i with
      | zero => simp [masked_H]
      | succ n => simpa [masked_H] using ih tb n

/-- A lookup in an association list built by pairing each key with a value
succeeds exactly for the listed keys. -/
theorem lookup_map_pair (g : ℕ → Node) (keys : List ℕ) (c : ℕ) :
    ((keys.map (fun h => (h, g h))).lookup c).isSome = keys.contains c := by
  induction keys with
  | nil => simp [List.lookup]
  | cons k t ih =>
    by_cases hk : c = k
    · simp [List.lookup, hk]
    · simp [List.lookup, beq_eq_false_iff_ne.mpr hk, ih, hk]

/-- The normalization facts about apply_H_mask: given a belief and a mask
of equal length with at least one legal value, the result sums to 1,
vanishes at every illegal index, and is the uniform distribution over legal
values whenever the masked mass is below the 1e-6 threshold. -/
theorem apply_H_mask_spec (H : List ℚ) (mask : List Bool)
    (hlen : H.length = mask.length) (hany : mask.any id = true) :
    (apply_H_mask H mask).sum = 1 ∧
    (∀ i, mask.getD i false = false → (apply_H_mask H mask).getD i 0 = 0) ∧
    ((masked_H H mask).sum < 1 / 1000000 →
      apply_H_mask H mask = uniform_legal mask) := by
  have hk : 0 < (mask.map boolToRat).sum := boolSum_pos mask hany
  by_cases hs : (masked_H H mask).sum < 1 / 1000000
  · refine ⟨?_, ?_, fun _ => by simp only [apply_H_mask]; rw [if_pos hs]⟩
    · have huni : uniform_legal mask
          = (mask.map boolToRat).map (fun x => x / (mask.map boolToRat).sum) := by
        simp [uniform_legal, List.map_map, Function.comp]
      simp only [apply_H_mask]
      rw [if_pos hs, huni, sum_map_div]
      exact div_self (ne_of_gt hk)
    · intro i hi
      simp only [apply_H_mask]
      rw [if_pos hs]
      simp only [uniform_legal, List.getD_eq_getElem?_getD,
        List.getElem?_map]
      cases hm : mask[i]? with
      | none => simp
      | some b =>
        have hb : b = false := by
          have h2 := hi
          rw [List.getD_eq_getElem?_getD, hm] at h2
          simpa using h2
        simp [hb, boolToRat]
  · refine ⟨?_, ?_, fun h => absurd h hs⟩
    · have hs' : (masked_H H mask).sum ≠ 0 := by
        have h1 : (1 : ℚ) / 1000000 ≤ (masked_H H mask).sum := le_of_not_lt hs
        have h2 : (0 : ℚ) < 1 / 1000000 := by norm_num
        exact ne_of_gt (lt_of_lt_of_le h2 h1)
      simp only [apply_H_mask]
      rw [if_neg hs, sum_map_div]
      exact div_self hs'
    · intro i hi
      simp only [apply_H_mask]
      rw [if_neg hs]
      simp only [List.getD_eq_getElem?_getD, List.getElem?_map,
        masked_H_getElem?]
      rcases Nat.lt_or_ge i mask.length with hilt | hige
      · have hmi : mask[i]? = some false := by
          have h2 := hi
          rw [List.getD_eq_getElem?_getD, List.getElem?_eq_getElem hilt] at h2
          simp only [Option.getD_some] at h2
          rw [List.getElem?_eq_getElem hilt, h2]
        have hHi : i < H.length := hlen ▸ hilt
        rw [List.getElem?_eq_getElem hHi, hmi]
        simp [boolToRat]
      · have hmi : mask[i]? = none := List.getElem?_eq_none (by omega)
        have hHi : H[i]? = none := List.getElem?_eq_none (by omega)
        rw [hmi, hHi]
        simp

/-- Claim C7: expanding a sampling node sets H to the evaluator's returned
belief with illegal hidden values zeroed and the rest renormalized — the
resulting H sums to exactly 1 and vanishes at every hidden value the mask
flags illegal — and when the masked mass falls below the 1e-6 threshold, H
is instead the uniform distribution over the legal hidden values. -/
theorem c7_belief_normalization
    (m : Model) (is : InfoSet) (d : SData)
    (hlen : (m.hidden_eval is).1.length = d.H_mask.length)
    (hany : d.H_mask.any id = true) :
    (expandS m is d).1.H
        = some (apply_H_mask (m.hidden_eval is).1 d.H_mask) ∧
    (apply_H_mask (m.hidden_eval is).1 d.H_mask).sum = 1 ∧
    (∀ i, d.H_mask.getD i false = false →
      (apply_H_mask (m.hidden_eval is).1 d.H_mask).getD i 0 = 0) ∧
    ((masked_H (m.hidden_eval is).1 d.H_mask).sum < 1 / 1000000 →
      apply_H_mask (m.hidden_eval is).1 d.H_mask
        = uniform_legal d.H_mask) := by
  obtain ⟨h1, h2, h3⟩ := apply_H_mask_spec (m.hidden_eval is).1 d.H_mask hlen hany
  exact ⟨rfl, h1, h2, h3⟩

/-- Witness for C7 at the spec's own concrete scenario: belief [1/2, 1/2]
with mask [true, false] normalizes to a belief that sums to 1 and is zero
at the illegal hidden value 1 (it collapses to [1, 0]). -/
theorem c7_witness :
    (expandS mW is_c0 sdW).1.H
        = some (apply_H_mask (mW.hidden_eval is_c0).1 sdW.H_mask) ∧
    (apply_H_mask (mW.hidden_eval is_c0).1 sdW.H_mask).sum = 1 ∧
    (apply_H_mask (mW.hidden_eval is_c0).1 sdW.H_mask).getD 1 0 = 0 :=
  ⟨(c7_belief_normalization mW is_c0 sdW rfl rfl).1,
   (c7_belief_normalization mW is_c0 sdW rfl rfl).2.1,
   (c7_belief_normalization mW is_c0 sdW rfl rfl).2.2.1 1 rfl⟩

/-- Every index carrying positive mass after apply_H_mask is within the
mask and legal under it (in both the renormalized and the uniform-fallback
branches, illegal or out-of-range entries are 0). -/
theorem apply_H_mask_support (H : List ℚ) (mask : List Bool) (c : ℕ)
    (hpos : 0 < (apply_H_mask H mask).getD c 0) :
    c < mask.length ∧ mask.getD c false = true := by
  by_cases hs : (masked_H H mask).sum < 1 / 1000000
  · rw [show apply_H_mask H mask = uniform_legal mask by
      simp only [apply_H_mask]; rw [if_pos hs]] at hpos
    rw [uniform_legal, List.getD_eq_getElem?_getD, List.getElem?_map] at hpos
    cases hm : mask[c]? with
    | none => rw [hm] at hpos; simp at hpos
    | some b =>
      rw [hm] at hpos
      cases b with
      | false =>
        have : boolToRat false = 0 := rfl
        simp [this] at hpos
      | true =>
        refine ⟨?_, ?_⟩
        · exact (List.getElem?_eq_some.mp hm).1
        · rw [List.getD_eq_getElem?_getD, hm]
          rfl
  · rw [show apply_H_mask H mask
        = (masked_H H mask).map (fun x => x / (masked_H H mask).sum) by
      simp only [apply_H_mask]; rw [if_neg hs]] at hpos
    rw [List.getD_eq_getElem?_getD, List.getElem?_map, masked_H_getElem?]
      at hpos
    cases hH : H[c]? with
    | none => rw [hH] at hpos; simp at hpos
    | some a =>
      cases hm : mask[c]? with
      | none => rw [hH, hm] at hpos; simp at hpos
      | some b =>
        rw [hH, hm] at hpos
        cases b with
        | false =>
          have : boolToRat false = 0 := rfl
          simp [this] at hpos
        | true =>
          refine ⟨?_, ?_⟩
          · exact (List.getElem?_eq_some.mp hm).1
          · rw [List.getD_eq_getElem?_getD, hm]
            rfl

/-- Claim C10: during the visit that expands a sampling node, every hidden
value c with positive probability in the stored belief H has a child in the
node's children map (children are created exactly for the legal hidden
values and H is zero outside the mask), so the children[c] lookup for a
value drawn from H succeeds. -/
theorem c10_sampled_support_has_child
    (m : Model) (pick : List ℚ → ℕ) (sqrtfn : ℚ → ℚ) (fuel : ℕ)
    (is : InfoSet) (cp : ℕ) (go : Option (ℚ × ℚ)) (Q : IArr) (N : ℕ)
    (d : SData) (children : List (ℕ × Node))
    (hH : d.H = none) :
    ∀ c, 0 < ((visit m pick sqrtfn (fuel + 1)
        (.mk is cp go Q N (.sampling d) children)).2.Hlist).getD c 0 →
      (((visit m pick sqrtfn (fuel + 1)
        (.mk is cp go Q N (.sampling d) children)).2.children).lookup c).isSome
          = true := by
  intro c hpos
  simp only [visit, stepSampling, hH, expandS, Phi, Node.Hlist,
    Node.children, Node.kind, Option.getD_some] at hpos ⊢
  obtain ⟨hlt, hleg⟩ :=
    apply_H_mask_support (m.hidden_eval is).1 d.H_mask c hpos
  rw [lookup_map_pair]
  simp only [List.contains, List.elem_eq_mem, decide_eq_true_eq,
    List.mem_filter, List.mem_range]
  exact ⟨hlt, hleg⟩

/-- Witness for C10 at the concrete fresh sampling node snode0: after its
expansion visit the belief is [1] and the child for hidden value 0 exists. -/
theorem c10_witness :
    (((visit m0 pick0 ratSqrt 1 snode0).2.children).lookup 0).isSome = true :=
  c10_sampled_support_has_child m0 pick0 ratSqrt 0 is_s
    is_s.get_current_player is_s.get_game_outcome
    (to_interval_array (.scalar (0, 0))) 0 _ [] rfl 0
    (by norm_num [visit, stepSampling, expandS, apply_H_mask, masked_H,
      uniform_legal, boolToRat, Phi, Node.Hlist, Node.kind, m0, is_s,
      snode0, mkSamplingNode, InfoSet.get_H_mask, InfoSet.get_game_outcome,
      InfoSet.get_current_player, pick0, sChild, to_interval_array,
      List.range, List.range.loop, List.filter, List.lookup])

/-- Entry i of a zipWith of two rational lists, as an optional lookup. -/
theorem getElem?_zipWith_rat (f : ℚ → ℚ → ℚ) (A B : List ℚ) (i : ℕ) :
    (List.zipWith f A B)[i]? =
      match A[i]?, B[i]? with
      | some a, some b => some (f a b)
      | _, _ => none := by
  induction A generalizing B i with
  | nil => cases B <;> cases i <;> simp
  | cons a t ih =>
    cases B with
    | nil => cases i <;> simp
    | cons b tb =>
      cases i with
      | zero => simp
      | succ n => simpa using ih tb n

/-- The selection distribution that get_mixing_distribution was intended to
compute is supported inside the candidate set: any action index carrying
positive probability is a member of action_indices (the property claim C2
derives for the mixed case, shown here for the intended restriction since
the shipped code raises before computing anything). -/
theorem mixing_intended_support (P : List ℚ) (idxs : List ℕ) (i : ℕ)
    (hpos : 0 < (get_mixing_distribution_intended P idxs).getD i 0) :
    i ∈ idxs := by
  by_contra hni
  rw [get_mixing_distribution_intended, List.getD_eq_getElem?_getD,
    List.getElem?_map, getElem?_zipWith_rat] at hpos
  rcases Nat.lt_or_ge i P.length with hilt | hige
  · rw [List.getElem?_eq_getElem hilt] at hpos
    rw [show ((List.range P.length).map
        (fun j => if j ∈ idxs then (1 : ℚ) else 0))[i]?
          = some (if i ∈ idxs then (1 : ℚ) else 0) by
      rw [List.getElem?_map, List.getElem?_range hilt]
      rfl] at hpos
    simp [hni] at hpos
  · rw [List.getElem?_eq_none (by omega)] at hpos
    simp at hpos

/-- A terminal decision node's visit increments N and changes nothing else:
the node returns unchanged apart from the visit count, with no error (the
terminal return of ActionNode.visit). -/
theorem terminal_visit_increments_N_only
    (m : Model) (pick : List ℚ → ℕ) (sqrtfn : ℚ → ℚ) (fuel : ℕ)
    (is : InfoSet) (cp : ℕ) (out : ℚ × ℚ) (Q : IArr) (N : ℕ)
    (d : AData) (children : List (ℕ × Node)) :
    visit m pick sqrtfn (fuel + 1)
        (.mk is cp (some out) Q N (.action d) children)
      = (none, .mk is cp (some out) Q (N + 1) (.action d) children) := by
  simp [visit, stepAction]

/-- The expansion visit of a non-terminal decision node increments N but
neither running counter, establishing n_pure + n_mixed = N - 1 right after
expansion (the other half of claim C8's accounting). -/
theorem expansion_visit_keeps_counters
    (m : Model) (pick : List ℚ → ℕ) (sqrtfn : ℚ → ℚ) (fuel : ℕ)
    (is : InfoSet) (cp : ℕ) (Q : IArr) (N : ℕ)
    (d : AData) (children : List (ℕ × Node))
    (hP : d.P = none) :
    (visit m pick sqrtfn (fuel + 1)
        (.mk is cp none Q N (.action d) children)).1 = none ∧
    (visit m pick sqrtfn (fuel + 1)
        (.mk is cp none Q N (.action d) children)).2.N = N + 1 ∧
    (visit m pick sqrtfn (fuel + 1)
        (.mk is cp none Q N (.action d) children)).2.n_pure = d.n_pure ∧
    (visit m pick sqrtfn (fuel + 1)
        (.mk is cp none Q N (.action d) children)).2.n_mixed = d.n_mixed := by
  refine ⟨?_, ?_, ?_, ?_⟩ <;>
    simp [visit, stepAction, hP, expandA, Node.N, Node.n_pure,
      Node.n_mixed, Node.kind]

/-- Setting an entry of a list to its own value changes nothing. -/
theorem set_getElem_self (l : List ℚ) (i : ℕ) (h : i < l.length) :
    l.set i l[i] = l := by
  apply List.ext_getElem
  · simp
  · intro n h1 h2
    rw [List.getElem_set]
    split
    · next heq => subst heq; rfl
    · rfl

/-- With a zero budget and a nonnegative limit at the first visited index,
the water-filling sweep leaves the belief unchanged: eps_to_use =
min(0, limit) = 0, the in-place update writes the entry back to itself, and
the budget check breaks out of the loop immediately. -/
theorem sweepLoop_zero (step : ℚ) (lim : List ℚ) (ord : List ℕ)
    (Hp : List ℚ) (hlim : ∀ i ∈ ord, 0 ≤ lim.getD i 0) :
    (sweepLoop step lim ord 0 Hp).1 = Hp := by
  cases ord with
  | nil => rfl
  | cons i rest =>
    have h0 : min (0 : ℚ) (lim.getD i 0) = 0 :=
      min_eq_left (hlim i (List.mem_cons_self i rest))
    simp only [sweepLoop, h0, mul_zero, add_zero, sub_zero, le_refl,
      if_true]
    rcases Nat.lt_or_ge i Hp.length with hi | hi
    · rw [List.getD_eq_getElem?_getD, List.getElem?_eq_getElem hi]
      exact set_getElem_self Hp i hi
    · exact List.set_eq_of_length_le hi

/-- Membership in an insertion-sorted list. -/
theorem mem_insertByKey (key : ℕ → ℚ) (i x : ℕ) (l : List ℕ) :
    x ∈ insertByKey key i l ↔ x = i ∨ x ∈ l := by
  induction l with
  | nil => simp [insertByKey]
  | cons j t ih =>
    by_cases hk : key i ≤ key j
    · simp [insertByKey, hk, List.mem_cons]
    · simp only [insertByKey, hk, if_false, List.mem_cons, ih]
      tauto

/-- Every index produced by argsortN is one of the sorted indices. -/
theorem mem_argsortN (key : ℕ → ℚ) (n : ℕ) (x : ℕ)
    (hx : x ∈ argsortN key n) : x < n := by
  have main : ∀ l : List ℕ, x ∈ l.foldr (insertByKey key) [] → x ∈ l := by
    intro l
    induction l with
    | nil => simp
    | cons a t ih =>
      intro h
      rcases (mem_insertByKey key a x _).mp h with h | h
      · simp [h]
      · simp [ih h, List.mem_cons]
  have := main (List.range n) hx
  exact List.mem_range.mp this

/-- Splitting a sum of pointwise differences. -/
theorem sum_map_sub (l : List ℕ) (f g : ℕ → ℚ) :
    (l.map (fun i => f i - g i)).sum = (l.map f).sum - (l.map g).sum := by
  induction l with
  | nil => simp
  | cons a t ih => simp [ih]; ring

/-- The indicator-weighted sum over the range picks the indicated term. -/
theorem sum_map_indicator (q : ℕ → ℚ) (c n : ℕ) (hc : c < n) :
    ((List.range n).map (fun i => (if i = c then (1 : ℚ) else 0) * q i)).sum
      = q c := by
  induction n with
  | zero => omega
  | succ m ih =>
    rw [List.range_succ, List.map_append, List.sum_append]
    rcases Nat.lt_or_ge c m with h | h
    · have h2 : (([m] : List ℕ).map
          (fun i => (if i = c then (1 : ℚ) else 0) * q i)).sum = 0 := by
        have hne : ¬(m = c) := by omega
        simp [hne]
      rw [ih h, h2, add_zero]
    · have hce : c = m := by omega
      subst hce
      have hz : ((List.range c).map
          (fun i => (if i = c then (1 : ℚ) else 0) * q i)).sum = 0 := by
        apply List.sum_eq_zero
        intro x hx
        rcases List.mem_map.mp hx with ⟨i, hi, rfl⟩
        have : i ≠ c := by
          have := List.mem_range.mp hi
          omega
        simp [this]
      have h2 : (([c] : List ℕ).map
          (fun i => (if i = c then (1 : ℚ) else 0) * q i)).sum = q c := by
        simp
      rw [hz, h2, zero_add]

/-- One cell of the intended Phi at eps = 0 equals the claimed boundary
value: with no budget both sweeps leave H unchanged, and the closing dot
product gives Q[c] - sum_i H[i] * Q[i] at the matching endpoints. -/
theorem phiCellFixed_eps_zero (c : ℕ) (Q : List IArr) (H : List ℚ)
    (p index : ℕ) (hc : c < H.length)
    (hH : ∀ h ∈ H, 0 ≤ h ∧ h ≤ 1) :
    phiCellFixed c 0 Q H p index = phiExpect c Q H p index := by
  have hHnn : ∀ i, i < H.length → 0 ≤ H.getD i 0 := by
    intro i hi
    rw [List.getD_eq_getElem?_getD, List.getElem?_eq_getElem hi]
    exact (hH _ (List.getElem_mem hi)).1
  have hH1nn : ∀ i, i < H.length →
      0 ≤ (H.map (fun h => 1 - h)).getD i 0 := by
    intro i hi
    rw [List.getD_eq_getElem?_getD, List.getElem?_map,
      List.getElem?_eq_getElem hi]
    have := (hH _ (List.getElem_mem hi)).2
    simp only [Option.map_some', Option.getD_some]
    linarith
  simp only [phiCellFixed]
  rw [sweepLoop_zero ((1 - 2 * (index : ℚ)) * -1)
    (if (-1 : ℚ) = 1 - 2 * (index : ℚ) then H.map (fun h => 1 - h) else H)
    ((argsortN (fun i => if i = c then -qcell Q c p index
        else -qcell Q i p (1 - index)) H.length).reverse) H
    (by
      intro i hi
      have hi' : i < H.length :=
        mem_argsortN _ _ _ (List.mem_reverse.mp hi)
      split
      · exact hH1nn i hi'
      · exact hHnn i hi')]
  rw [sweepLoop_zero ((1 - 2 * (index : ℚ)) * 1)
    (if (1 : ℚ) = 1 - 2 * (index : ℚ) then H.map (fun h => 1 - h) else H)
    (argsortN (fun i => if i = c then -qcell Q c p index
        else -qcell Q i p (1 - index)) H.length) H
    (by
      intro i hi
      have hi' : i < H.length := mem_argsortN _ _ _ hi
      split
      · exact hH1nn i hi'
      · exact hHnn i hi')]
  rw [show (fun i => ((if i = c then (1 : ℚ) else 0) - H.getD i 0) *
        (if i = c then qcell Q c p index else qcell Q i p (1 - index)))
      = fun i => (if i = c then (1 : ℚ) else 0) *
            (if i = c then qcell Q c p index else qcell Q i p (1 - index))
          - H.getD i 0 *
            (if i = c then qcell Q c p index else qcell Q i p (1 - index))
    from funext (fun i => by ring)]
  rw [sum_map_sub, sum_map_indicator _ _ _ hc]
  simp [phiExpect]

/-- The intended Phi at eps = 0 returns, for each player and bound, exactly
Q[c] - sum_i H[i] * Q[i] at the matching interval endpoints — the identity
claim C5 attributes to Phi, which the shipped Phi (raising TypeError on
every call) never produces. -/
theorem phiFixed_eps_zero (c : ℕ) (Q : List IArr) (H : List ℚ)
    (hc : c < H.length) (hH : ∀ h ∈ H, 0 ≤ h ∧ h ≤ 1) :
    PhiFixed c 0 Q H =
      ((phiExpect c Q H 0 0, phiExpect c Q H 0 1),
       (phiExpect c Q H 1 0, phiExpect c Q H 1 1)) := by
  rw [PhiFixed, phiCellFixed_eps_zero c Q H 0 0 hc hH,
    phiCellFixed_eps_zero c Q H 0 1 hc hH,
    phiCellFixed_eps_zero c Q H 1 0 hc hH,
    phiCellFixed_eps_zero c Q H 1 1 hc hH]

/-- At a concrete instance, the intended Phi widens with the budget: for
hidden value 0 of the example table, eps = 0 yields the interval
[-1, -1/2] (per player) and eps = PHI_EPS = 1/20 yields [-11/10, -9/20],
which strictly contains it — the monotone widening claim C9 attributes to
Phi, exhibited on the reconstructed computation (the shipped Phi raises
before computing anything). -/
theorem phiFixed_widens_example :
    PhiFixed 0 0 QW HW = ((-1, -1/2), (-1, -1/2)) ∧
    PhiFixed 0 PHI_EPS QW HW = ((-11/10, -9/20), (-11/10, -9/20)) ∧
    ((-11/10 : ℚ) ≤ -1 ∧ (-1/2 : ℚ) ≤ -9/20) := by
  refine ⟨?_, ?_, by norm_num⟩ <;>
    norm_num [PhiFixed, phiCellFixed, argsortN, insertByKey, sweepLoop,
      qcell, playerRow, QW, HW, PHI_EPS, DUMMY_INTERVAL_ARRAY,
      List.range, List.range.loop]

end ISMCTS
